import Mathlib

/-!
Verification of core Draco codec components against their C++ sources.

Shallow embedding conventions:
* machine integers are `Nat` / `Int` with explicit `% 2 ^ w` where C++
  truncation or casting matters;
* byte buffers are `List Nat` whose entries denote bytes (kept `< 256` by
  the operations that write them);
* fallible operations return `Bool × _` (mirroring the C++ `bool` returns
  plus out-parameters) or `Option _`.
-/

namespace Draco

/-! ## bit_utils.h : signed ↔ symbol conversion (zig-zag map) -/

/-- Embeds `ConvertSignedIntToSymbol` (bit_utils.h) instantiated at
`IntTypeT = int32_t`.  `val` holds the int32 value; the result is the
`uint32_t` symbol.  The C++ body: if `val >= 0` return
`static_cast<U>(val) << 1`; else `val = -(val + 1)`, then
`ret = static_cast<U>(val); ret <<= 1; ret |= 1`.  Casts and shifts are
modulo `2 ^ 32`. -/
def ConvertSignedIntToSymbol (val : Int) : Nat :=
  if 0 ≤ val then
    ((val.toNat % 2 ^ 32) <<< 1) % 2 ^ 32
  else
    let val2 := -(val + 1)
    let ret := val2.toNat % 2 ^ 32
    let ret2 := (ret <<< 1) % 2 ^ 32
    ret2 ||| 1

/-- Embeds the `uint32_t → int32_t` conversion (`static_cast<SignedType>`),
two's-complement wrap-around. -/
def uint32ToInt32 (u : Nat) : Int :=
  if u % 2 ^ 32 < 2 ^ 31 then (u % 2 ^ 32 : Int) else (u % 2 ^ 32 : Int) - 2 ^ 32

/-- Embeds `ConvertSymbolToSignedInt` (bit_utils.h) instantiated at
`IntTypeT = uint32_t`.  The C++ body: `is_positive = !(val & 1)`,
`val >>= 1`; if positive return `static_cast<S>(val)`; else
`ret = static_cast<S>(val); ret = -ret - 1`. -/
def ConvertSymbolToSignedInt (val : Nat) : Int :=
  let isPositive := val &&& 1 == 0
  let val2 := val >>> 1
  if isPositive then uint32ToInt32 val2
  else -(uint32ToInt32 val2) - 1

/-! ## draco_compression_options.h -/

/-- Embeds `SpatialQuantizationOptions::Mode`. -/
inductive SpatialQuantizationMode where
  | UNDEFINED
  | LOCAL_QUANTIZATION_BITS
  | GLOBAL_GRID
deriving DecidableEq

/-- Embeds `SpatialQuantizationOptions`.  The `float spacing_` member is
omitted: no claim touches it and floats are outside the embedding. -/
structure SpatialQuantizationOptions where
  mode : SpatialQuantizationMode
  quantizationBits : Int
deriving DecidableEq

/-- Embeds the `SpatialQuantizationOptions(int quantization_bits)`
constructor.  Its body is declared in draco_compression_options.h and
defined out of the available sources; consistent with the
`SetQuantizationBits` / `quantization_bits()` interface it stores the
argument and switches the mode to `LOCAL_QUANTIZATION_BITS`. -/
def SpatialQuantizationOptions.ofBits (bits : Int) : SpatialQuantizationOptions :=
  { mode := SpatialQuantizationMode.LOCAL_QUANTIZATION_BITS, quantizationBits := bits }

/-- Embeds `DracoCompressionOptions` (draco_compression_options.h).
The `float quantization_range`, `const float *quantization_origin` and the
two metadata string vectors are omitted: no claim touches them and
floats/pointers are outside the embedding. -/
structure DracoCompressionOptions where
  compressionLevel : Int
  quantizationPosition : SpatialQuantizationOptions
  quantizationBitsTexCoord : Int
  quantizationBitsNormal : Int
  quantizationBitsColor : Int
  quantizationBitsGeneric : Int
  quantizationBitsTangent : Int
  quantizationBitsWeight : Int
  createMetadata : Bool
  preservePolygons : Bool
  useBuiltInAttributeCompression : Bool
deriving DecidableEq

/-- Embeds the `DracoCompressionOptions()` default constructor:
`compression_level(7), quantization_position(11),
quantization_bits_tex_coord(10), quantization_bits_normal(8),
quantization_bits_color(8), quantization_bits_generic(8),
quantization_bits_tangent(8), quantization_bits_weight(8),
create_metadata(false), preserve_polygons(false),
use_built_in_attribute_compression(true)`. -/
def DracoCompressionOptions.default : DracoCompressionOptions :=
  { compressionLevel := 7
    quantizationPosition := SpatialQuantizationOptions.ofBits 11
    quantizationBitsTexCoord := 10
    quantizationBitsNormal := 8
    quantizationBitsColor := 8
    quantizationBitsGeneric := 8
    quantizationBitsTangent := 8
    quantizationBitsWeight := 8
    createMetadata := false
    preservePolygons := false
    useBuiltInAttributeCompression := true }

/-! ## mesh.h : corner to point id -/

/-- A mesh face: `std::array<PointIndex, 3>`.  Point indices are `Nat`. -/
abbrev Face : Type := Nat × Nat × Nat

/-- Component access `face[k]` for `k ∈ 0, 1, 2`. -/
def faceComponent (f : Face) (k : Nat) : Nat :=
  if k = 0 then f.1 else if k = 1 then f.2.1 else f.2.2

/-- Embeds `kInvalidCornerIndex.value()`.  `geometry_indices.h` is not
among the available sources; the invalid-index sentinel of the index
types is the largest `uint32_t` value (the spec's ⊥ marker for corner
queries). -/
def kInvalidCornerIndexValue : Nat := 2 ^ 32 - 1

/-- Embeds the connectivity part of `draco::Mesh`: the `faces_` vector.
All other members are irrelevant to the claims about `CornerToPointId`. -/
structure Mesh where
  faces : List Face
deriving DecidableEq

/-- Embeds `Mesh::CornerToPointId(int ci)`:
`if (ci < 0 || static_cast<uint32_t>(ci) == kInvalidCornerIndex.value())
return kInvalidPointIndex; return this->face(FaceIndex(ci / 3))[ci % 3];`.
`kInvalidPointIndex` is rendered as `none`.  The `faces_[i]` access is an
unchecked `std::vector` read; out-of-range reads are undefined in C++ and
rendered here by the `getD` default, which no in-bounds theorem relies
on.  The `static_cast<uint32_t>` of the int32 argument is `ci % 2 ^ 32`
(two's-complement). -/
def Mesh.cornerToPointId (m : Mesh) (ci : Int) : Option Nat :=
  if ci < 0 ∨ ci % 2 ^ 32 = (kInvalidCornerIndexValue : Int) then none
  else some (faceComponent (m.faces.getD (ci / 3).toNat (0, 0, 0)) ((ci % 3).toNat))

/-- Spec-level accessor `face_vertex[f][k]` used to state the corner-table
claims. -/
def Mesh.faceVertex (m : Mesh) (f : Nat) (k : Nat) : Nat :=
  faceComponent (m.faces.getD f (0, 0, 0)) k

/-! ## decoder_buffer.h : byte mode -/

/-- Embeds the byte-mode state of `draco::DecoderBuffer`: the input data
(`data_` with `data_size_ = ` its length, as set by `Init`) and the
parsing position `pos_` (an `int64_t`).  The bit-mode members are
modelled separately by `BitDecoder` below. -/
structure DecoderBuffer where
  data : List Nat
  pos : Int
deriving DecidableEq

/-- Embeds `DecoderBuffer::decoded_size()`: returns `pos_`. -/
def DecoderBuffer.decodedSize (s : DecoderBuffer) : Int := s.pos

/-- Embeds `DecoderBuffer::remaining_size()`: returns `data_size_ - pos_`. -/
def DecoderBuffer.remainingSize (s : DecoderBuffer) : Int :=
  (s.data.length : Int) - s.pos

/-- Embeds `DecoderBuffer::Decode(void *out_data, size_t size_to_decode)`
(and the typed `Decode<T>`, whose effect is the same with
`size_to_decode = sizeof(T)`): if `data_size_ < pos_ + size` return
`false` (out untouched, position kept); else copy `size` bytes from
`data_ + pos_` and advance `pos_`.  Result: (return value, buffer after
the call, bytes written to the out-parameter). -/
def DecoderBuffer.decodeBytes (s : DecoderBuffer) (n : Nat) :
    Bool × DecoderBuffer × List Nat :=
  if (s.data.length : Int) < s.pos + n then (false, s, [])
  else (true, { s with pos := s.pos + n }, (s.data.drop s.pos.toNat).take n)

/-- Embeds `DecoderBuffer::Peek(void *out_data, size_t size_to_peek)`
(and the typed `Peek<T>`): same bounds check and copy as `Decode`, but
`pos_` is not advanced. -/
def DecoderBuffer.peekBytes (s : DecoderBuffer) (n : Nat) :
    Bool × DecoderBuffer × List Nat :=
  if (s.data.length : Int) < s.pos + n then (false, s, [])
  else (true, s, (s.data.drop s.pos.toNat).take n)

/-! ## decoder_buffer.h : BitDecoder -/

/-- Embeds `DecoderBuffer::BitDecoder`: the byte range
`[bit_buffer_, bit_buffer_end_)` and `bit_offset_`. -/
structure BitDecoder where
  bitBuffer : List Nat
  bitOffset : Nat
deriving DecidableEq

/-- Embeds `BitDecoder::GetBit()`: `byte_offset = off >> 3`,
`bit_shift = off & 7`; if the byte is before `bit_buffer_end_`, return
that bit and advance `bit_offset_`; otherwise return `0` without
advancing. -/
def BitDecoder.getBit (s : BitDecoder) : Nat × BitDecoder :=
  let byteOffset := s.bitOffset >>> 3
  let bitShift := s.bitOffset % 8
  if byteOffset < s.bitBuffer.length then
    (((s.bitBuffer.getD byteOffset 0) >>> bitShift) &&& 1,
      { s with bitOffset := s.bitOffset + 1 })
  else (0, s)

/-- Embeds `BitDecoder::GetBits(uint32_t nbits, uint32_t *x)`: fails
(returns `false`, here `none`) iff `nbits > 32`; otherwise ORs `nbits`
calls of `GetBit` into the output, LSB first. -/
def BitDecoder.getBits (s : BitDecoder) (nbits : Nat) :
    Option (Nat × BitDecoder) :=
  if 32 < nbits then none
  else some ((List.range nbits).foldl
    (fun acc bit =>
      let r := acc.2.getBit
      (acc.1 ||| (r.1 <<< bit), r.2))
    (0, s))

/-! ## encoder_buffer.h -/

/-- Embeds the state of `draco::EncoderBuffer` used by byte-mode writes:
the byte vector `buffer_` and `bit_encoder_reserved_bytes_` (values `> 0`
mean bit-encoding mode is active).  The `bit_encoder_` pointer and the
size-prefix flag play no role in the embedded operations. -/
structure EncoderBuffer where
  buffer : List Nat
  bitEncoderReservedBytes : Int
deriving DecidableEq

/-- Embeds `EncoderBuffer::bit_encoder_active()`:
`bit_encoder_reserved_bytes_ > 0`. -/
def EncoderBuffer.bitEncoderActive (b : EncoderBuffer) : Bool :=
  decide (0 < b.bitEncoderReservedBytes)

/-- Embeds `EncoderBuffer::Encode` (both the typed overload and the
`(const void *, size_t)` overload; `data` holds the bytes of the
encoded value): if `bit_encoder_active()` return `false`; else append the
bytes to `buffer_` and return `true`. -/
def EncoderBuffer.encode (b : EncoderBuffer) (data : List Nat) :
    Bool × EncoderBuffer :=
  if b.bitEncoderActive then (false, b)
  else (true, { b with buffer := b.buffer ++ data })

/-- Embeds `EncoderBuffer::BitEncoder`: the target byte buffer and
`bit_offset_`.  In C++ the encoder writes through a raw pointer into
bytes reserved inside `buffer_`; the reserved region is modelled as this
list. -/
structure BitEncoder where
  bitBuffer : List Nat
  bitOffset : Nat
deriving DecidableEq

/-- Embeds `BitEncoder::PutBit(uint8_t value)`:
`byte_offset = off / 8`, `bit_shift = off % 8`;
`bit_buffer_[byte_offset] &= ~(1 << bit_shift)` then
`bit_buffer_[byte_offset] |= value << bit_shift`; `bit_offset_++`.
The stored byte is truncated to 8 bits (`char` storage). -/
def BitEncoder.putBit (s : BitEncoder) (value : Nat) : BitEncoder :=
  let byteOffset := s.bitOffset / 8
  let bitShift := s.bitOffset % 8
  let old := s.bitBuffer.getD byteOffset 0
  let cleared := old &&& (255 ^^^ (1 <<< bitShift))
  let updated := (cleared ||| (value <<< bitShift)) % 256
  { s with bitBuffer := s.bitBuffer.set byteOffset updated,
           bitOffset := s.bitOffset + 1 }

/-- Embeds `BitEncoder::PutBits(uint32_t data, int32_t nbits)`:
`for bit in [0, nbits): PutBit((data >> bit) & 1)`. -/
def BitEncoder.putBits (s : BitEncoder) (data : Nat) (nbits : Nat) : BitEncoder :=
  (List.range nbits).foldl (fun st bit => st.putBit ((data >>> bit) &&& 1)) s

/-- Bit `i` of the flat bit stream over a byte buffer: bit `i % 8` of
byte `i / 8` (LSB-first packing within each byte). -/
def streamBit (buf : List Nat) (i : Nat) : Bool :=
  (buf.getD (i / 8) 0).testBit (i % 8)

/-! ## Spec-modelled sequential codec (encode/decode are not among the
available sources; modelled from the spec, §4.G sequential codec and
§4.H framing) -/

/-- Modelled from the spec: a geometry as far as claim-relevant structure
goes — a point count and a list of triangular faces.  Attribute payloads
are carried by separate blocks in the spec and do not affect vertex/face
counts or connectivity. -/
structure Geometry where
  numPoints : Nat
  faces : List Face
deriving DecidableEq

/-- Modelled from the spec: unsigned LEB128-style varint encoding
(7 data bits per byte, high bit continues). -/
def varintEncode (n : Nat) : List Nat :=
  if n < 128 then [n] else (n % 128 + 128) :: varintEncode (n / 128)
decreasing_by exact Nat.div_lt_self (by omega) (by norm_num)

/-- Modelled from the spec: varint decoding; returns the value and the
remaining bytes, or `none` on truncated input. -/
def varintDecode : List Nat → Option (Nat × List Nat)
  | [] => none
  | b :: rest =>
      if b < 128 then some (b, rest)
      else
        match varintDecode rest with
        | none => none
        | some (v, rem) => some ((b - 128) + 128 * v, rem)

/-- Modelled from the spec: the zig-zag map `u = v < 0 ? -2v - 1 : 2v`
on unbounded integers, as written in §4.D. -/
def zigzagSpec (v : Int) : Nat :=
  if v < 0 then (-2 * v - 1).toNat else (2 * v).toNat

/-- Modelled from the spec: the inverse zig-zag map
`v = (u & 1) ? -((u+1)>>1) : (u>>1)`. -/
def unzigzagSpec (u : Nat) : Int :=
  if u % 2 = 1 then -(((u : Int) + 1) / 2) else (u : Int) / 2

/-- Modelled from the spec: the face block of the sequential mesh codec —
point-index triples, varint-encoded with delta coding across faces
(deltas are taken componentwise against the previous face, zig-zag mapped
to unsigned; the initial previous face is all zeros). -/
def encodeFaceBlock (prev : Face) : List Face → List Nat
  | [] => []
  | f :: rest =>
      varintEncode (zigzagSpec ((f.1 : Int) - (prev.1 : Int))) ++
      varintEncode (zigzagSpec ((f.2.1 : Int) - (prev.2.1 : Int))) ++
      varintEncode (zigzagSpec ((f.2.2 : Int) - (prev.2.2 : Int))) ++
      encodeFaceBlock f rest

/-- Modelled from the spec: face-block decoding, inverse of
`encodeFaceBlock`, consuming exactly `count` faces. -/
def decodeFaceBlock (prev : Face) : Nat → List Nat → Option (List Face × List Nat)
  | 0, bytes => some ([], bytes)
  | count + 1, bytes =>
      match varintDecode bytes with
      | none => none
      | some (u1, r1) =>
        match varintDecode r1 with
        | none => none
        | some (u2, r2) =>
          match varintDecode r2 with
          | none => none
          | some (u3, r3) =>
            let f : Face := (((prev.1 : Int) + unzigzagSpec u1).toNat,
                             ((prev.2.1 : Int) + unzigzagSpec u2).toNat,
                             ((prev.2.2 : Int) + unzigzagSpec u3).toNat)
            match decodeFaceBlock f count r3 with
            | none => none
            | some (fs, rem) => some (f :: fs, rem)

/-- Modelled from the spec: header major version (the spec fixes the
layout, not the concrete value). -/
def kMajorVersion : Nat := 2

/-- Modelled from the spec: header minor version. -/
def kMinorVersion : Nat := 2

/-- Modelled from the spec, §4.H: sequential mesh encoding — magic
`"DRACO"` (bytes 68 82 65 67 79), major and minor version, encoder type
(1 = mesh-sequential), encoder method, flags (u16), then varint point
count, varint face count and the delta-coded face block. -/
def encodeSequentialMesh (g : Geometry) : List Nat :=
  68 :: 82 :: 65 :: 67 :: 79 :: kMajorVersion :: kMinorVersion :: 1 :: 0 :: 0 :: 0 ::
    (varintEncode g.numPoints ++ varintEncode g.faces.length ++
      encodeFaceBlock (0, 0, 0) g.faces)

/-- Modelled from the spec, §4.H: sequential mesh decoding — checks the
magic and the mesh-sequential encoder type, then reads point count, face
count and the face block.  Version compatibility and the other encoder
types are outside this model. -/
def decodeSequentialMesh : List Nat → Option Geometry
  | 68 :: 82 :: 65 :: 67 :: 79 :: _maj :: _min :: 1 :: _method :: _f0 :: _f1 :: rest =>
      (match varintDecode rest with
       | none => none
       | some (np, rest2) =>
         match varintDecode rest2 with
         | none => none
         | some (fc, rest3) =>
           match decodeFaceBlock (0, 0, 0) fc rest3 with
           | none => none
           | some (faces, _) => some { numPoints := np, faces := faces })
  | _ => none

end Draco

namespace Draco

/-! ## Theorems -/

/-- C2: the zig-zag maps are mutually inverse on all of int32. -/
theorem convertSymbol_leftInverse (v : Int)
    (hlo : -(2 ^ 31) ≤ v) (hhi : v < 2 ^ 31) :
    ConvertSymbolToSignedInt (ConvertSignedIntToSymbol v) = v := by
  by_cases h0 : 0 ≤ v
  · have hv : v.toNat < 2 ^ 31 := by omega
    have h1 : v.toNat % 2 ^ 32 = v.toNat := Nat.mod_eq_of_lt (by omega)
    have hsym : ConvertSignedIntToSymbol v = v.toNat * 2 := by
      simp only [ConvertSignedIntToSymbol, h0, if_true]
      rw [h1, Nat.shiftLeft_eq, pow_one]
      exact Nat.mod_eq_of_lt (by omega)
    rw [hsym]
    have h3 : v.toNat * 2 &&& 1 = 0 := by rw [Nat.and_one_is_mod]; omega
    have h5 : v.toNat * 2 >>> 1 = v.toNat := by rw [Nat.shiftRight_one]; omega
    simp only [ConvertSymbolToSignedInt, h3, h5, uint32ToInt32, h1]
    norm_num [hv]
    omega
  · have hneg : v < 0 := by omega
    set a := (-(v + 1)).toNat with ha
    have hv2 : a < 2 ^ 31 := by omega
    have h1 : a % 2 ^ 32 = a := Nat.mod_eq_of_lt (by omega)
    have h2 : a * 2 % 2 ^ 32 = a * 2 := Nat.mod_eq_of_lt (by omega)
    have h3 : a * 2 ||| 1 = a * 2 + 1 := by
      have h := Nat.mul_add_lt_is_or (b := 1) (i := 1) (by norm_num) a
      norm_num at h
      rw [Nat.mul_comm 2 a] at h
      exact h.symm
    have hsym : ConvertSignedIntToSymbol v = a * 2 + 1 := by
      simp only [ConvertSignedIntToSymbol, h0, if_false, ← ha]
      rw [h1, Nat.shiftLeft_eq, pow_one, h2, h3]
    rw [hsym]
    have h4 : (a * 2 + 1) &&& 1 = 1 := by rw [Nat.and_one_is_mod]; omega
    have h5 : (a * 2 + 1) >>> 1 = a := by rw [Nat.shiftRight_one]; omega
    simp only [ConvertSymbolToSignedInt, h4, h5, uint32ToInt32, h1]
    norm_num [hv2]
    omega

/-- Closed witness for `convertSymbol_leftInverse` at `v = INT32_MIN`. -/
theorem convertSymbol_leftInverse_witness :
    -(2 ^ 31) ≤ (-(2 ^ 31) : Int) ∧ (-(2 ^ 31) : Int) < 2 ^ 31 ∧
    ConvertSymbolToSignedInt (ConvertSignedIntToSymbol (-(2 ^ 31))) = -(2 ^ 31) :=
  ⟨le_refl _, by norm_num,
    convertSymbol_leftInverse (-(2 ^ 31)) (le_refl _) (by norm_num)⟩

/-- C4 counterexample: the spec's claimed defaults (position 14, normal 10,
color 8, texcoord 12) do not match `DracoCompressionOptions()`. -/
theorem defaultQuantization_spec_false :
    ¬(DracoCompressionOptions.default.quantizationPosition.quantizationBits = 14 ∧
      DracoCompressionOptions.default.quantizationBitsNormal = 10 ∧
      DracoCompressionOptions.default.quantizationBitsColor = 8 ∧
      DracoCompressionOptions.default.quantizationBitsTexCoord = 12) := by
  decide

/-- C4 (amended): the default constructor sets quantization bits 11 for
position, 8 for normal, 8 for color and 10 for texcoord (and 8 for
generic, tangent and weight). -/
theorem defaultQuantization_values :
    DracoCompressionOptions.default.quantizationPosition.quantizationBits = 11 ∧
    DracoCompressionOptions.default.quantizationBitsNormal = 8 ∧
    DracoCompressionOptions.default.quantizationBitsColor = 8 ∧
    DracoCompressionOptions.default.quantizationBitsTexCoord = 10 ∧
    DracoCompressionOptions.default.quantizationBitsGeneric = 8 ∧
    DracoCompressionOptions.default.quantizationBitsTangent = 8 ∧
    DracoCompressionOptions.default.quantizationBitsWeight = 8 := by
  decide

/-- C6: while bit encoding is active, byte-mode `Encode` fails and leaves
the whole buffer state (in particular `buffer_`) unchanged. -/
theorem encode_invalidState_whenBitActive (b : EncoderBuffer) (data : List Nat)
    (h : b.bitEncoderActive = true) :
    (b.encode data).1 = false ∧ (b.encode data).2 = b := by
  simp [EncoderBuffer.encode, h]

/-- Closed witness for `encode_invalidState_whenBitActive`. -/
theorem encode_invalidState_witness :
    EncoderBuffer.bitEncoderActive ⟨[], 1⟩ = true ∧
    ((EncoderBuffer.encode ⟨[], 1⟩ [7, 7]).1 = false ∧
      (EncoderBuffer.encode ⟨[], 1⟩ [7, 7]).2 = ⟨[], 1⟩) :=
  ⟨by decide, encode_invalidState_whenBitActive ⟨[], 1⟩ [7, 7] (by decide)⟩

/-- C8: a byte-mode `Decode` or `Peek` whose extent is past the end fails,
writes nothing to the out location, and leaves the parsing position,
`decoded_size()` and `remaining_size()` unchanged. -/
theorem decode_pastEnd_noEffect (s : DecoderBuffer) (n : Nat)
    (h : (s.data.length : Int) < s.pos + n) :
    s.decodeBytes n = (false, s, []) ∧ s.peekBytes n = (false, s, []) ∧
    (s.decodeBytes n).2.1.decodedSize = s.decodedSize ∧
    (s.decodeBytes n).2.1.remainingSize = s.remainingSize := by
  simp [DecoderBuffer.decodeBytes, DecoderBuffer.peekBytes, h]

/-- Closed witness for `decode_pastEnd_noEffect`. -/
theorem decode_pastEnd_noEffect_witness :
    (((DecoderBuffer.mk [5] 0).data.length : Int) < (DecoderBuffer.mk [5] 0).pos + (2 : Nat)) ∧
    (DecoderBuffer.mk [5] 0).decodeBytes 2 = (false, DecoderBuffer.mk [5] 0, []) :=
  ⟨by decide, (decode_pastEnd_noEffect (DecoderBuffer.mk [5] 0) 2 (by decide)).1⟩

/-- C9: an in-bounds `Peek` succeeds, returns exactly the bytes a `Decode`
would return, leaves the buffer state (hence `decoded_size()`,
`remaining_size()` and the parsing position) unchanged, and a subsequent
`Decode` succeeds and returns those same bytes. -/
theorem peek_decode_agree (s : DecoderBuffer) (n : Nat)
    (hpos : 0 ≤ s.pos) (hin : s.pos + n ≤ (s.data.length : Int)) :
    (s.peekBytes n).1 = true ∧
    (s.peekBytes n).2.1 = s ∧
    (s.peekBytes n).2.2 = (s.decodeBytes n).2.2 ∧
    (s.peekBytes n).2.2.length = n ∧
    ((s.peekBytes n).2.1.decodeBytes n).1 = true ∧
    ((s.peekBytes n).2.1.decodeBytes n).2.2 = (s.peekBytes n).2.2 := by
  have hnot : ¬((s.data.length : Int) < s.pos + n) := by omega
  simp [DecoderBuffer.peekBytes, DecoderBuffer.decodeBytes, hnot]
  omega

/-- Closed witness for `peek_decode_agree`. -/
theorem peek_decode_agree_witness :
    (0 ≤ (DecoderBuffer.mk [9, 8, 7] 1).pos ∧
      (DecoderBuffer.mk [9, 8, 7] 1).pos + (2 : Nat) ≤
        ((DecoderBuffer.mk [9, 8, 7] 1).data.length : Int)) ∧
    ((DecoderBuffer.mk [9, 8, 7] 1).peekBytes 2).2.2 =
      ((DecoderBuffer.mk [9, 8, 7] 1).decodeBytes 2).2.2 :=
  ⟨⟨by decide, by decide⟩,
    (peek_decode_agree (DecoderBuffer.mk [9, 8, 7] 1) 2 (by decide) (by decide)).2.2.1⟩

/-- C10: `CornerToPointId` on a negative corner index, or on one whose
`uint32_t` cast equals `kInvalidCornerIndex.value()`, returns
`kInvalidPointIndex` (`none`) for every face array — the face array is
not consulted. -/
theorem cornerToPointId_invalidCorner (m m2 : Mesh) (ci : Int)
    (hlo : -(2 ^ 31) ≤ ci) (hhi : ci < 2 ^ 31)
    (h : ci < 0 ∨ ci % 2 ^ 32 = (kInvalidCornerIndexValue : Int)) :
    m.cornerToPointId ci = none ∧ m.cornerToPointId ci = m2.cornerToPointId ci := by
  unfold Mesh.cornerToPointId
  rw [if_pos h, if_pos h]
  exact ⟨rfl, rfl⟩

/-- Closed witness for `cornerToPointId_invalidCorner` at `ci = -1` (whose
`uint32_t` cast is exactly the invalid corner index). -/
theorem cornerToPointId_invalidCorner_witness :
    (-(2 ^ 31) ≤ (-1 : Int) ∧ (-1 : Int) < 2 ^ 31 ∧
      ((-1 : Int) < 0 ∨ (-1 : Int) % 2 ^ 32 = (kInvalidCornerIndexValue : Int))) ∧
    (Mesh.mk [(1, 2, 3)]).cornerToPointId (-1) = none :=
  ⟨⟨by norm_num, by norm_num, Or.inl (by norm_num)⟩,
    (cornerToPointId_invalidCorner (Mesh.mk [(1, 2, 3)]) (Mesh.mk []) (-1)
      (by norm_num) (by norm_num) (Or.inl (by norm_num))).1⟩

/-- C7: for an in-range corner index `ci ≥ 0` of a mesh with faces,
`CornerToPointId` reads exactly `face_vertex[ci / 3][ci % 3]`, and the
face of the corner is `ci / 3`, in range of the face array. -/
theorem cornerToPointId_validCorner (m : Mesh) (ci : Int)
    (h0 : 0 ≤ ci) (hint : ci < 2 ^ 31) (hf : ci < 3 * m.faces.length) :
    m.cornerToPointId ci = some (m.faceVertex (ci / 3).toNat ((ci % 3).toNat)) ∧
    (ci / 3).toNat < m.faces.length := by
  have hmod : ci % 2 ^ 32 = ci := Int.emod_eq_of_lt h0 (by omega)
  have hx : ((kInvalidCornerIndexValue : Nat) : Int) = 4294967295 := by
    norm_num [kInvalidCornerIndexValue]
  have hguard : ¬(ci < 0 ∨ ci % 2 ^ 32 = (kInvalidCornerIndexValue : Int)) := by
    push_neg
    rw [hx]
    omega
  constructor
  · unfold Mesh.cornerToPointId Mesh.faceVertex
    rw [if_neg hguard]
  · omega

/-- Closed witness for `cornerToPointId_validCorner` at the last corner of
a two-face mesh. -/
theorem cornerToPointId_validCorner_witness :
    (0 ≤ (5 : Int) ∧ (5 : Int) < 2 ^ 31 ∧
      (5 : Int) < 3 * (Mesh.mk [(1, 2, 3), (4, 5, 6)]).faces.length) ∧
    (Mesh.mk [(1, 2, 3), (4, 5, 6)]).cornerToPointId 5 = some 6 :=
  ⟨⟨by norm_num, by norm_num, by decide⟩, by
    have h := (cornerToPointId_validCorner (Mesh.mk [(1, 2, 3), (4, 5, 6)]) 5
      (by norm_num) (by norm_num) (by decide)).1
    rw [h]; decide⟩


/-! ## Bit decoder lemmas -/

/-- A `GetBit` at or past the buffer end returns `0` without advancing. -/
theorem getBit_pastEnd (t : BitDecoder) (ht : 8 * t.bitBuffer.length ≤ t.bitOffset) :
    t.getBit = (0, t) := by
  have h3 : t.bitOffset >>> 3 = t.bitOffset / 8 := by
    rw [Nat.shiftRight_eq_div_pow]
  simp only [BitDecoder.getBit, h3]
  rw [if_neg (by omega)]

/-- A `GetBits` of up to 32 bits at or past the buffer end succeeds,
returning `0` and leaving the state unchanged. -/
theorem getBits_pastEnd (t : BitDecoder) (k : Nat) (hk : k ≤ 32)
    (ht : 8 * t.bitBuffer.length ≤ t.bitOffset) :
    t.getBits k = some (0, t) := by
  unfold BitDecoder.getBits
  rw [if_neg (by omega)]
  suffices h : ∀ j, (List.range j).foldl
      (fun acc bit =>
        let r := acc.2.getBit
        (acc.1 ||| (r.1 <<< bit), r.2)) ((0 : Nat), t) = (0, t) by
    rw [h k]
  intro j
  induction j with
  | zero => rfl
  | succ i ih =>
      rw [List.range_succ, List.foldl_append, ih]
      simp [getBit_pastEnd t ht]

/-- C3 counterexample: a bit-mode read whose extent is past the end of the
data (1 bit requested, 0 bytes available) does not fail: it succeeds and
returns `0`. -/
theorem bitReadPastEnd_succeeds_cex :
    BitDecoder.getBits ⟨[], 0⟩ 1 = some (0, ⟨[], 0⟩) ∧
    BitDecoder.getBits ⟨[], 0⟩ 1 ≠ none := by
  decide

/-- C3 (amended): byte-mode `Decode` and `Peek` whose extent would pass
the end of the data fail without returning data, but a bit-mode `GetBits`
(of up to 32 bits) positioned at or past the end does not fail: it
succeeds, yielding `0` bits and leaving the position unchanged. -/
theorem readPastEnd_behavior (s : DecoderBuffer) (n : Nat)
    (t : BitDecoder) (k : Nat)
    (hbyte : (s.data.length : Int) < s.pos + n)
    (hk : k ≤ 32) (ht : 8 * t.bitBuffer.length ≤ t.bitOffset) :
    (s.decodeBytes n).1 = false ∧ (s.peekBytes n).1 = false ∧
    t.getBits k = some (0, t) := by
  refine ⟨?_, ?_, getBits_pastEnd t k hk ht⟩
  · simp [DecoderBuffer.decodeBytes, hbyte]
  · simp [DecoderBuffer.peekBytes, hbyte]

/-- Closed witness for `readPastEnd_behavior`. -/
theorem readPastEnd_behavior_witness :
    ((((DecoderBuffer.mk [5] 0).data.length : Int) < (DecoderBuffer.mk [5] 0).pos + (2 : Nat)) ∧
      (3 : Nat) ≤ 32 ∧
      8 * (BitDecoder.mk [] 2).bitBuffer.length ≤ (BitDecoder.mk [] 2).bitOffset) ∧
    BitDecoder.getBits (BitDecoder.mk [] 2) 3 = some (0, BitDecoder.mk [] 2) :=
  ⟨⟨by decide, by decide, by decide⟩,
    (readPastEnd_behavior (DecoderBuffer.mk [5] 0) 2 (BitDecoder.mk [] 2) 3
      (by decide) (by decide) (by decide)).2.2⟩


/-! ## Bit encoder correctness -/

/-- Effect of the byte update performed by `PutBit` on a single bit of the
byte: bit `sh` becomes `value`, every other low bit is preserved. -/
theorem testBit_putByteUpdate (old value sh j : Nat)
    (hsh : sh < 8) (hj : j < 8) (hv : value ≤ 1) :
    (((old &&& (255 ^^^ (1 <<< sh))) ||| (value <<< sh)) % 256).testBit j =
      if j = sh then decide (value = 1) else old.testBit j := by
  have h256 : (256 : Nat) = 2 ^ 8 := by norm_num
  have h255 : (255 : Nat) = 2 ^ 8 - 1 := by norm_num
  rw [h256, Nat.testBit_mod_two_pow, h255, Nat.one_shiftLeft,
    Nat.testBit_or, Nat.testBit_and, Nat.testBit_xor,
    Nat.testBit_two_pow_sub_one, Nat.testBit_two_pow, Nat.testBit_shiftLeft]
  by_cases hjs : j = sh
  · subst hjs
    have hvm : value % 2 = value := Nat.mod_eq_of_lt (by omega)
    simp [hj, hvm]
  · rw [if_neg hjs]
    have hsj : decide (sh = j) = false := decide_eq_false (fun h => hjs h.symm)
    have hd8 : decide (j < 8) = true := decide_eq_true hj
    have hsecond : (decide (sh ≤ j) && value.testBit (j - sh)) = false := by
      by_cases hle : sh ≤ j
      · have h1 : (1 : Nat) ≤ j - sh := by omega
        have h2 : 2 ^ 1 ≤ 2 ^ (j - sh) := Nat.pow_le_pow_right (by norm_num) h1
        have hlt : value < 2 ^ (j - sh) := by omega
        rw [Nat.testBit_lt_two_pow hlt, Bool.and_false]
      · rw [decide_eq_false hle, Bool.false_and]
    rw [hd8, hsj, hsecond]
    simp

/-- Reading with `getD` after `set` at the written index. -/
theorem getD_set_self (l : List Nat) (k x : Nat) (h : k < l.length) :
    (l.set k x).getD k 0 = x := by
  simp [List.getD_eq_getElem?_getD, List.getElem?_set_self h]

/-- Reading with `getD` after `set` at a different index. -/
theorem getD_set_ne (l : List Nat) (k j x : Nat) (h : j ≠ k) :
    (l.set k x).getD j 0 = l.getD j 0 := by
  simp [List.getD_eq_getElem?_getD, List.getElem?_set_ne (Ne.symm h)]

/-- A `PutBit` writes `value` at stream position `bit_offset_`, advances the
offset, and preserves the buffer length and every other stream bit. -/
theorem putBit_spec (s : BitEncoder) (value : Nat) (hv : value ≤ 1)
    (hin : s.bitOffset / 8 < s.bitBuffer.length) :
    (s.putBit value).bitOffset = s.bitOffset + 1 ∧
    (s.putBit value).bitBuffer.length = s.bitBuffer.length ∧
    streamBit (s.putBit value).bitBuffer s.bitOffset = decide (value = 1) ∧
    ∀ i, i ≠ s.bitOffset →
      streamBit (s.putBit value).bitBuffer i = streamBit s.bitBuffer i := by
  have hupd : ∀ j, j < 8 →
      (((s.bitBuffer.getD (s.bitOffset / 8) 0 &&& (255 ^^^ (1 <<< (s.bitOffset % 8)))) |||
        (value <<< (s.bitOffset % 8))) % 256).testBit j =
        if j = s.bitOffset % 8 then decide (value = 1)
        else (s.bitBuffer.getD (s.bitOffset / 8) 0).testBit j :=
    fun j hj => testBit_putByteUpdate _ value (s.bitOffset % 8) j
      (Nat.mod_lt _ (by norm_num)) hj hv
  refine ⟨rfl, by simp [BitEncoder.putBit], ?_, ?_⟩
  · simp only [BitEncoder.putBit, streamBit]
    rw [getD_set_self _ _ _ hin, hupd (s.bitOffset % 8) (Nat.mod_lt _ (by norm_num))]
    simp
  · intro i hi
    simp only [BitEncoder.putBit, streamBit]
    by_cases hbyte : i / 8 = s.bitOffset / 8
    · rw [hbyte, getD_set_self _ _ _ hin,
        hupd (i % 8) (Nat.mod_lt _ (by norm_num)), if_neg (by omega)]
    · rw [getD_set_ne _ _ _ _ hbyte]

/-- A `PutBits` lays down the `nbits` low bits of `data` LSB-first starting
at the current offset, advancing the offset by `nbits`, preserving the
buffer length and all stream bits outside the written range. -/
theorem putBits_spec (data : Nat) (nbits : Nat) (s : BitEncoder)
    (hin : s.bitOffset + nbits ≤ 8 * s.bitBuffer.length) :
    (s.putBits data nbits).bitOffset = s.bitOffset + nbits ∧
    (s.putBits data nbits).bitBuffer.length = s.bitBuffer.length ∧
    (∀ i, i < nbits →
      streamBit (s.putBits data nbits).bitBuffer (s.bitOffset + i) = data.testBit i) ∧
    (∀ j, j < s.bitOffset ∨ s.bitOffset + nbits ≤ j →
      streamBit (s.putBits data nbits).bitBuffer j = streamBit s.bitBuffer j) := by
  induction nbits with
  | zero =>
      refine ⟨by simp [BitEncoder.putBits], by simp [BitEncoder.putBits], ?_, ?_⟩
      · intro i hi; omega
      · intro j hj; simp [BitEncoder.putBits]
  | succ n ih =>
      obtain ⟨ih1, ih2, ih3, ih4⟩ := ih (by omega)
      have hstep : s.putBits data (n + 1) =
          (s.putBits data n).putBit ((data >>> n) &&& 1) := by
        unfold BitEncoder.putBits
        rw [List.range_succ, List.foldl_append]
        rfl
      have hvle : (data >>> n) &&& 1 ≤ 1 := by
        rw [Nat.and_one_is_mod]; omega
      have hinstep : (s.putBits data n).bitOffset / 8 <
          (s.putBits data n).bitBuffer.length := by
        rw [ih1, ih2]; omega
      obtain ⟨p1, p2, p3, p4⟩ := putBit_spec (s.putBits data n)
        ((data >>> n) &&& 1) hvle hinstep
      refine ⟨by rw [hstep, p1, ih1]; omega, by rw [hstep, p2, ih2], ?_, ?_⟩
      · intro i hi
        rw [hstep]
        by_cases hlast : i = n
        · subst hlast
          have hoff : s.bitOffset + i = (s.putBits data i).bitOffset := ih1.symm
          rw [hoff, p3]
          rw [Nat.and_one_is_mod, Nat.shiftRight_eq_div_pow, Nat.testBit_to_div_mod]
        · have hne : s.bitOffset + i ≠ (s.putBits data n).bitOffset := by
            rw [ih1]; omega
          rw [p4 _ hne]
          exact ih3 i (by omega)
      · intro j hj
        rw [hstep]
        have hne : j ≠ (s.putBits data n).bitOffset := by rw [ih1]; omega
        rw [p4 _ hne]
        exact ih4 j (by omega)

/-- In-range `GetBit` returns exactly the stream bit at the current offset
and advances it. -/
theorem getBit_inRange (t : BitDecoder)
    (hin : t.bitOffset / 8 < t.bitBuffer.length) :
    t.getBit = ((streamBit t.bitBuffer t.bitOffset).toNat,
      ⟨t.bitBuffer, t.bitOffset + 1⟩) := by
  have h3 : t.bitOffset >>> 3 = t.bitOffset / 8 := by
    rw [Nat.shiftRight_eq_div_pow]
  simp only [BitDecoder.getBit, h3]
  rw [if_pos hin]
  have hval : (t.bitBuffer.getD (t.bitOffset / 8) 0 >>> (t.bitOffset % 8)) &&& 1 =
      (streamBit t.bitBuffer t.bitOffset).toNat := by
    rw [Nat.and_one_is_mod, Nat.shiftRight_eq_div_pow, streamBit, Nat.toNat_testBit]
  rw [hval]

/-- A `GetBits` over a stream whose first `n` bits agree with the low bits
of `v` returns `v % 2 ^ n` and advances the offset by `n`. -/
theorem getBits_of_streamBits (t : BitDecoder) (v n : Nat) (hn : n ≤ 32)
    (hin : t.bitOffset + n ≤ 8 * t.bitBuffer.length)
    (hbits : ∀ i, i < n → streamBit t.bitBuffer (t.bitOffset + i) = v.testBit i) :
    t.getBits n = some (v % 2 ^ n, ⟨t.bitBuffer, t.bitOffset + n⟩) := by
  unfold BitDecoder.getBits
  rw [if_neg (by omega)]
  suffices h : ∀ m, m ≤ n → (List.range m).foldl
      (fun acc bit =>
        let r := acc.2.getBit
        (acc.1 ||| (r.1 <<< bit), r.2)) ((0 : Nat), t) =
      (v % 2 ^ m, ⟨t.bitBuffer, t.bitOffset + m⟩) by
    rw [h n (Nat.le_refl n)]
  intro m hm
  induction m with
  | zero =>
      simp [Nat.mod_one]
  | succ k ihk =>
      rw [List.range_succ, List.foldl_append, ihk (by omega)]
      have hink : (t.bitOffset + k) / 8 < t.bitBuffer.length := by omega
      simp only [List.foldl_cons, List.foldl_nil]
      rw [getBit_inRange ⟨t.bitBuffer, t.bitOffset + k⟩ hink]
      have hb : streamBit t.bitBuffer (t.bitOffset + k) = v.testBit k :=
        hbits k (by omega)
      simp only [hb]
      have hmerge : v % 2 ^ k ||| ((v.testBit k).toNat <<< k) = v % 2 ^ (k + 1) := by
        rw [Nat.toNat_testBit, Nat.shiftLeft_eq, pow_succ, Nat.mod_mul,
          Nat.or_comm, Nat.mul_comm (v / 2 ^ k % 2) (2 ^ k),
          ← Nat.mul_add_lt_is_or (Nat.mod_lt v (Nat.two_pow_pos k)) (v / 2 ^ k % 2)]
        exact Nat.add_comm _ _
      rw [hmerge]
      have hoff : t.bitOffset + k + 1 = t.bitOffset + (k + 1) := rfl
      rw [hoff]

/-- C5: bits are packed LSB-first within each byte, and the bit coding
round-trips: for any width `n ≤ 32` and any 32-bit value `v`, encoding
with `PutBits(v, n)` into a zeroed reserved region and reading `n` bits
back with `GetBits` yields `v mod 2 ^ n`. -/
theorem putBits_getBits_roundtrip (v n : Nat) (hv : v < 2 ^ 32) (hn : n ≤ 32) :
    (∀ i, i < n →
      streamBit ((BitEncoder.mk (List.replicate 4 0) 0).putBits v n).bitBuffer i =
        v.testBit i) ∧
    BitDecoder.getBits
        ⟨((BitEncoder.mk (List.replicate 4 0) 0).putBits v n).bitBuffer, 0⟩ n =
      some (v % 2 ^ n,
        ⟨((BitEncoder.mk (List.replicate 4 0) 0).putBits v n).bitBuffer, n⟩) := by
  have hlen : (List.replicate 4 (0 : Nat)).length = 4 := by simp
  obtain ⟨e1, e2, e3, e4⟩ := putBits_spec v n (BitEncoder.mk (List.replicate 4 0) 0)
    (by simp only [hlen]; omega)
  have hbits : ∀ i, i < n →
      streamBit ((BitEncoder.mk (List.replicate 4 0) 0).putBits v n).bitBuffer i =
        v.testBit i := by
    intro i hi
    have h := e3 i hi
    simpa using h
  refine ⟨hbits, ?_⟩
  have hdec := getBits_of_streamBits
    ⟨((BitEncoder.mk (List.replicate 4 0) 0).putBits v n).bitBuffer, 0⟩ v n hn
    (by simp only [e2, hlen]; omega) (by simpa using hbits)
  simpa using hdec

/-- Closed witness for `putBits_getBits_roundtrip` at `v = 51966`,
`n = 16`. -/
theorem putBits_getBits_roundtrip_witness :
    ((51966 : Nat) < 2 ^ 32 ∧ (16 : Nat) ≤ 32) ∧
    BitDecoder.getBits
        ⟨((BitEncoder.mk (List.replicate 4 0) 0).putBits 51966 16).bitBuffer, 0⟩ 16 =
      some (51966 % 2 ^ 16,
        ⟨((BitEncoder.mk (List.replicate 4 0) 0).putBits 51966 16).bitBuffer, 16⟩) :=
  ⟨⟨by norm_num, by norm_num⟩,
    (putBits_getBits_roundtrip 51966 16 (by norm_num) (by norm_num)).2⟩


/-! ## Spec-modelled sequential codec round-trip -/

/-- Varint decoding inverts varint encoding and leaves trailing bytes. -/
theorem varintDecode_varintEncode (n : Nat) (tail : List Nat) :
    varintDecode (varintEncode n ++ tail) = some (n, tail) := by
  induction n using Nat.strong_induction_on with
  | _ n ih =>
    unfold varintEncode
    by_cases h : n < 128
    · rw [if_pos h]
      simp [varintDecode, h]
    · rw [if_neg h]
      simp only [List.cons_append]
      unfold varintDecode
      rw [if_neg (by omega),
        ih (n / 128) (Nat.div_lt_self (by omega) (by norm_num))]
      have harith : (n % 128 + 128 - 128) + 128 * (n / 128) = n := by omega
      change some ((n % 128 + 128 - 128) + 128 * (n / 128), tail) = some (n, tail)
      rw [harith]

/-- The spec-written inverse zig-zag map inverts the spec-written zig-zag
map on all integers. -/
theorem unzigzagSpec_zigzagSpec (v : Int) : unzigzagSpec (zigzagSpec v) = v := by
  unfold zigzagSpec unzigzagSpec
  by_cases h : v < 0
  · rw [if_pos h, if_pos (by omega)]
    omega
  · rw [if_neg h, if_neg (by omega)]
    omega

/-- Face-block decoding inverts face-block encoding for any starting
previous face, leaving trailing bytes. -/
theorem decodeFaceBlock_encodeFaceBlock (fs : List Face) (prev : Face)
    (tail : List Nat) :
    decodeFaceBlock prev fs.length (encodeFaceBlock prev fs ++ tail) =
      some (fs, tail) := by
  induction fs generalizing prev with
  | nil => simp [encodeFaceBlock, decodeFaceBlock]
  | cons f rest ih =>
      simp only [List.length_cons]
      unfold encodeFaceBlock decodeFaceBlock
      simp only [List.append_assoc, varintDecode_varintEncode,
        unzigzagSpec_zigzagSpec]
      have hf1 : ((prev.1 : Int) + ((f.1 : Int) - (prev.1 : Int))).toNat = f.1 := by
        omega
      have hf2 : ((prev.2.1 : Int) + ((f.2.1 : Int) - (prev.2.1 : Int))).toNat = f.2.1 := by
        omega
      have hf3 : ((prev.2.2 : Int) + ((f.2.2 : Int) - (prev.2.2 : Int))).toNat = f.2.2 := by
        omega
      simp only [hf1, hf2, hf3, Prod.mk.eta, ih f]

/-- C1-supporting (spec-modelled): for the sequential mesh method,
decoding the encoded stream returns the geometry exactly — in particular
the point count and face count are preserved and every decoded face is a
face of the input (with the identity re-indexing). -/
theorem sequentialMesh_roundtrip (g : Geometry) :
    decodeSequentialMesh (encodeSequentialMesh g) = some g := by
  unfold encodeSequentialMesh decodeSequentialMesh
  simp only [List.append_assoc, varintDecode_varintEncode]
  rw [← List.append_nil (encodeFaceBlock (0, 0, 0) g.faces),
    decodeFaceBlock_encodeFaceBlock]

end Draco
